import Mathlib

/-!
Shallow embedding of the async control-flow decorators of the
`angular-18-clean` repository (ShareExecution, ObservableQueue,
ObservableCache, BulkOperator, PollingObservable, SmartRetry,
ObservableMemoize), together with proofs and refutations of the
specification's claims about them.

JavaScript `Map`s are modelled as insertion-ordered association lists:
`Map.set` on an existing key updates the value in place (keeping the
key's position), on a fresh key it appends; iteration follows that
order.  Timestamps (`Date.now()`) are modelled as `Nat`.
-/

namespace Spec2Proof

/-! ### JS `Map` as an insertion-ordered association list -/

def mapGet {α : Type} (m : List (String × α)) (k : String) : Option α :=
  match m with
  | [] => none
  | (k', v) :: rest => if k' = k then some v else mapGet rest k

def mapHas {α : Type} (m : List (String × α)) (k : String) : Bool :=
  (mapGet m k).isSome

/-- JS Map.set: update in place if the key exists, otherwise append. -/
def mapSet {α : Type} (m : List (String × α)) (k : String) (v : α) :
    List (String × α) :=
  match m with
  | [] => [(k, v)]
  | (k', v') :: rest =>
    if k' = k then (k', v) :: rest else (k', v') :: mapSet rest k v

def mapDelete {α : Type} (m : List (String × α)) (k : String) :
    List (String × α) :=
  match m with
  | [] => []
  | (k', v') :: rest =>
    if k' = k then rest else (k', v') :: mapDelete rest k

theorem mapGet_set_self {α : Type} (m : List (String × α)) (k : String) (v : α) :
    mapGet (mapSet m k v) k = some v := by
  induction m with
  | nil => simp [mapSet, mapGet]
  | cons hd tl ih =>
    obtain ⟨k', v'⟩ := hd
    by_cases h : k' = k
    · simp [mapSet, mapGet, h]
    · simp [mapSet, mapGet, h, ih]

theorem mapGet_set_ne {α : Type} (m : List (String × α)) (k k' : String)
    (v : α) (h : k ≠ k') : mapGet (mapSet m k v) k' = mapGet m k' := by
  induction m with
  | nil => simp [mapSet, mapGet, h]
  | cons hd tl ih =>
    obtain ⟨k'', v''⟩ := hd
    by_cases h2 : k'' = k
    · subst h2
      simp [mapSet, mapGet, h]
    · simp [mapSet, mapGet, h2, ih]

theorem mapGet_of_not_mem {α : Type} (m : List (String × α)) (k : String)
    (h : k ∉ List.map Prod.fst m) : mapGet m k = none := by
  induction m with
  | nil => rfl
  | cons hd tl ih =>
    obtain ⟨k', v'⟩ := hd
    simp only [List.map_cons, List.mem_cons] at h
    push_neg at h
    have hne : k' ≠ k := Ne.symm h.1
    simp only [mapGet, if_neg hne]
    exact ih h.2

theorem mapGet_delete_self {α : Type} (m : List (String × α)) (k : String)
    (hnd : (List.map Prod.fst m).Nodup) :
    mapGet (mapDelete m k) k = none := by
  induction m with
  | nil => simp [mapDelete, mapGet]
  | cons hd tl ih =>
    obtain ⟨k', v'⟩ := hd
    simp only [List.map_cons, List.nodup_cons] at hnd
    by_cases h : k' = k
    · subst h
      simp only [mapDelete, if_pos rfl]
      exact mapGet_of_not_mem tl k' hnd.1
    · simp only [mapDelete, if_neg h, mapGet, if_neg h]
      exact ih hnd.2

/-! ### C1: `ShareExecution` decorator
(`src/app/shared/decorators/share-execution-decorator.ts`)

The decorated method keeps a per-instance `Map<string, ExecutionState>`
(`instanceCache`).  A call with key `k`:
if `instanceCache.has(k)` it returns the stored `sharedResult` without
invoking the original method; otherwise it invokes the original method,
stores the shared handle under `k`, and returns it.  `cleanupCache`
(run by `finalize`, i.e. on settlement) deletes the key. -/

/-- State of one instance's ShareExecution cache: the pending map
(key ↦ shared-handle id), a count of underlying invocations, and a
fresh-handle counter. -/
structure SEState where
  pending : List (String × Nat)
  invocations : Nat
  nextId : Nat
deriving Repr, DecidableEq

/-- One call of the decorated method (`descriptor.value`): join the
pending execution for the key if present, otherwise invoke the original
method (recorded by bumping `invocations`) and register the fresh shared
handle. -/
def seCall (s : SEState) (key : String) : Nat × SEState :=
  match mapGet s.pending key with
  | some h => (h, s)
  | none =>
    (s.nextId,
      { pending := mapSet s.pending key s.nextId
        invocations := s.invocations + 1
        nextId := s.nextId + 1 })

/-- Model of cleanupCache, run when the shared execution settles. -/
def seSettle (s : SEState) (key : String) : SEState :=
  { s with pending := mapDelete s.pending key }

/-- Runs n consecutive calls with the same key (all before any
settlement), returning the list of handles handed to the callers. -/
def seCalls (s : SEState) (key : String) : Nat → List Nat × SEState
  | 0 => ([], s)
  | n + 1 =>
    let r := seCall s key
    let rs := seCalls r.2 key n
    (r.1 :: rs.1, rs.2)

theorem seCall_hit (s : SEState) (key : String) (h : Nat)
    (hh : mapGet s.pending key = some h) : seCall s key = (h, s) := by
  simp [seCall, hh]

theorem seCalls_hit (s : SEState) (key : String) (h : Nat) (n : Nat)
    (hh : mapGet s.pending key = some h) :
    seCalls s key n = (List.replicate n h, s) := by
  induction n with
  | zero => simp [seCalls]
  | succ n ih => simp [seCalls, seCall_hit s key h hh, ih, List.replicate_succ]

/-- C1: N concurrent calls of a ShareExecution-wrapped method with the
same key, all made before the first execution settles (no `seSettle` in
between), invoke the underlying method exactly once, and every caller
receives the very same shared handle (hence observes the identical
settlement, broadcast once by `shareReplay`). -/
theorem c1_share_execution_dedup (s : SEState) (key : String) (n : Nat)
    (hn : 1 ≤ n) (hmiss : mapGet s.pending key = none) :
    (seCalls s key n).1 = List.replicate n s.nextId ∧
    (seCalls s key n).2.invocations = s.invocations + 1 := by
  obtain ⟨m, rfl⟩ : ∃ m, n = m + 1 := ⟨n - 1, by omega⟩
  have hfirst : seCall s key =
      (s.nextId,
        { pending := mapSet s.pending key s.nextId
          invocations := s.invocations + 1
          nextId := s.nextId + 1 }) := by
    simp [seCall, hmiss]
  have hh : mapGet (mapSet s.pending key s.nextId) key = some s.nextId :=
    mapGet_set_self s.pending key s.nextId
  constructor
  · show (seCalls s key (m + 1)).1 = _
    simp only [seCalls, hfirst]
    rw [seCalls_hit _ key s.nextId m hh]
    simp [List.replicate_succ]
  · show (seCalls s key (m + 1)).2.invocations = _
    simp only [seCalls, hfirst]
    rw [seCalls_hit _ key s.nextId m hh]

/-- Witness for C1 at a concrete input: three concurrent calls on a
fresh state yield one invocation and three identical handles. -/
theorem c1_share_execution_dedup_witness :
    (seCalls ⟨[], 0, 0⟩ "fetchUser" 3).1 = List.replicate 3 (0 : Nat) ∧
    (seCalls ⟨[], 0, 0⟩ "fetchUser" 3).2.invocations = 0 + 1 :=
  c1_share_execution_dedup ⟨[], 0, 0⟩ "fetchUser" 3 (by decide) rfl

/-! ### C7: `SmartRetry` backoff
(`src/app/routes/main-route/main.route.ts`, `calculateDelay`,
`fibonacciNumber`, `retryImplementation`) -/

/-- Iterative loop of fibonacciNumber: each pass performs
result = a + b; a = b; b = result. -/
def fibLoop : Nat → Nat → Nat → Nat → Nat
  | 0, _, _, result => result
  | k + 1, a, b, _ => fibLoop k b (a + b) (a + b)

/-- Translation of fibonacciNumber(n): 0 for n ≤ 0, 1 for n = 1,
otherwise the loop runs for i = 2..n (that is, n - 1 passes) starting
from a = 0, b = 1, result = 1. -/
def fibonacciNumber : Nat → Nat
  | 0 => 0
  | 1 => 1
  | n + 2 => fibLoop (n + 1) 0 1 1

/-- Retry strategies of SmartRetry. -/
inductive Strategy
  | immediate
  | fixedDelay
  | exponential
  | fibonacci
  | random
  | incremental
deriving Repr, DecidableEq

/-- Translation of calculateDelay(retryCount).  The random branch
computes `Math.floor(Math.random() * (maxDelay - initialDelay + 1)) +
initialDelay`; the sampled floor value is passed in as `rnd`. -/
def calculateDelay (strategy : Strategy) (initialDelay maxDelay increment rnd : Nat)
    (retryCount : Nat) : Nat :=
  match strategy with
  | .immediate => 0
  | .fixedDelay => initialDelay
  | .exponential => min (2 ^ retryCount * initialDelay) maxDelay
  | .fibonacci => min (fibonacciNumber (retryCount + 1) * initialDelay) maxDelay
  | .random => rnd + initialDelay
  | .incremental => min (initialDelay + retryCount * increment) maxDelay

/-- In retryImplementation, the n-th error notification (0-indexed
mergeMap `index`) schedules `timer(calculateDelay(index))` provided
`retryCount = index + 1` does not exceed maxRetries and the error is
retryable.  With `failures` consecutive retryable errors the scheduled
delays are therefore `calculateDelay 0 .. calculateDelay (m-1)` with
`m = min failures maxRetries`. -/
def retryScheduledDelays (strategy : Strategy)
    (maxRetries initialDelay maxDelay increment rnd failures : Nat) : List Nat :=
  (List.range (min failures maxRetries)).map
    (calculateDelay strategy initialDelay maxDelay increment rnd)

/-- C7: for strategy exponential with initialDelay = 100 and
maxDelay = 1000, the delay scheduled before retry attempt n (0-indexed)
is min (100 * 2 ^ n) 1000, and the delays for n = 0..5 are exactly
[100, 200, 400, 800, 1000, 1000]. -/
theorem c7_exponential_backoff :
    (∀ n : Nat,
      calculateDelay .exponential 100 1000 0 0 n = min (100 * 2 ^ n) 1000) ∧
    retryScheduledDelays .exponential 6 100 1000 0 0 6 =
      [100, 200, 400, 800, 1000, 1000] := by
  constructor
  · intro n
    simp [calculateDelay, Nat.mul_comm]
  · decide

/-! ### ObservableCache (`src/unnamed/part_020`), memory scope

State: the module-level `memoryCache` (key ↦ item), `cacheGroups`
(group ↦ key set) and `lruKeys` (key ↦ last-touch time).  Values are
modelled as `Nat`; the loading stub created by `fetchFreshData` has
`value = none` and `loading = true` (presence of the `loading$`
field). -/

structure CacheItem where
  value : Option Nat
  timestamp : Nat
  group : Option String
  expiresAt : Nat
  loading : Bool
deriving Repr, DecidableEq

structure CacheState where
  memoryCache : List (String × CacheItem)
  cacheGroups : List (String × List String)
  lruKeys : List (String × Nat)
deriving Repr, DecidableEq

def emptyCacheState : CacheState := ⟨[], [], []⟩

/-- JS Set.add on a set modelled as a duplicate-free list. -/
def setAdd (ks : List String) (k : String) : List String :=
  if k ∈ ks then ks else ks ++ [k]

/-- The eviction scan of setCachedValue: `oldestKey = ''`,
`oldestTime = Date.now()`, then for each (key, time) of lruKeys in
iteration order, adopt the entry when `time < oldestTime`. -/
def findOldestStep (acc kv : String × Nat) : String × Nat :=
  if kv.2 < acc.2 then kv else acc

def findOldestKey (lru : List (String × Nat)) (now : Nat) : String :=
  (lru.foldl findOldestStep ("", now)).1

/-- Removal of an evicted key from its group: setCachedValue walks
`cacheGroups.entries()` and deletes the key from the first set
containing it, then breaks. -/
def removeFromFirstGroup (gs : List (String × List String)) (k : String) :
    List (String × List String) :=
  match gs with
  | [] => []
  | (g, ks) :: rest =>
    if k ∈ ks then (g, ks.erase k) :: rest
    else (g, ks) :: removeFromFirstGroup rest k

/-- The victim of the LRU scan, when setCachedValue evicts:
guarded by `maxCacheSize && memoryCache.size >= maxCacheSize` (a JS
truthiness test, so maxCacheSize = 0 means unset) and by
`oldestKey != ''`. -/
def evictionVictim (maxCacheSize : Nat) (s : CacheState) (now : Nat) :
    Option String :=
  if maxCacheSize ≠ 0 ∧ maxCacheSize ≤ s.memoryCache.length then
    let k := findOldestKey s.lruKeys now
    if k = "" then none else some k
  else none

/-- Translation of setCachedValue(key, value, group) for the memory
scope: timestamp = Date.now(), expiresAt = timestamp + ttl, LRU
eviction when the size bound is reached, then
memoryCache.set / lruKeys.set and group registration. -/
def setCachedValue (maxCacheSize ttl : Nat) (s : CacheState) (now : Nat)
    (key : String) (value : Nat) (group : Option String) : CacheState :=
  let item : CacheItem := ⟨some value, now, group, now + ttl, false⟩
  let s1 : CacheState :=
    match evictionVictim maxCacheSize s now with
    | some victim =>
      { memoryCache := mapDelete s.memoryCache victim
        lruKeys := mapDelete s.lruKeys victim
        cacheGroups := removeFromFirstGroup s.cacheGroups victim }
    | none => s
  let s2 :=
    { s1 with
        memoryCache := mapSet s1.memoryCache key item
        lruKeys := mapSet s1.lruKeys key now }
  match group with
  | none => s2
  | some g =>
    { s2 with
        cacheGroups :=
          mapSet s2.cacheGroups g (setAdd ((mapGet s2.cacheGroups g).getD []) key) }

/-- Translation of getCachedValue(key) for the memory scope: a hit in
memoryCache refreshes the key's LRU touch time (reads count as
touches) and returns the item, expired or not. -/
def getCachedValue (s : CacheState) (now : Nat) (key : String) :
    Option CacheItem × CacheState :=
  match mapGet s.memoryCache key with
  | some item => (some item, { s with lruKeys := mapSet s.lruKeys key now })
  | none => (none, s)

/-- Options of the ObservableCache decorator relevant to reads.
Defaults in the source: ttl = 300000, shareRequests = true,
slidingExpiration = false, refreshInBackground = false,
staleWhileRevalidate = true, maxCacheSize unset (0). -/
structure CacheOpts where
  ttl : Nat
  shareRequests : Bool
  slidingExpiration : Bool
  refreshInBackground : Bool
  staleWhileRevalidate : Bool
  maxCacheSize : Nat
deriving Repr, DecidableEq

/-- What a call of the decorated method (descriptor.value) hands back
to the caller. -/
inductive ReadOutcome
  | sharedPending
  /-- valid cache: returns of(cachedItem.value); no fetch happens. -/
  | servedFromCache (v : Option Nat)
  /-- expired cache with staleWhileRevalidate: the stale value is
  returned and a fresh computation is triggered asynchronously. -/
  | servedStale (v : Option Nat)
  /-- fetchFreshData() is returned: the underlying method runs. -/
  | fetchedFresh
deriving Repr, DecidableEq

/-- Translation of the read path of descriptor.value: look the key up
(touching the LRU), return a pending shared request when
shareRequests finds one, serve a still-valid entry (renewing its TTL
under slidingExpiration), serve an expired entry under
staleWhileRevalidate (a revalidating fetch is also triggered), and
otherwise run fetchFreshData. -/
def observableCacheRead (opts : CacheOpts) (s : CacheState) (now : Nat)
    (key : String) : ReadOutcome × CacheState :=
  let r := getCachedValue s now key
  match r.1 with
  | some item =>
    if opts.shareRequests ∧ item.loading then (.sharedPending, r.2)
    else if now < item.expiresAt then
      let s2 :=
        if opts.slidingExpiration then
          { r.2 with
              memoryCache :=
                mapSet r.2.memoryCache key { item with expiresAt := now + opts.ttl } }
        else r.2
      (.servedFromCache item.value, s2)
    else if opts.staleWhileRevalidate then (.servedStale item.value, r.2)
    else (.fetchedFresh, r.2)
  | none => (.fetchedFresh, r.2)

/-- C3 counterexample: the claim says a value stored with ttl = 0 never
expires and any later read still answers from the cache.  In the code
expiresAt = timestamp + ttl, so ttl = 0 makes the entry expire at its
own write time: a read 50ms later (plain configuration, no
staleWhileRevalidate) does not answer from the cache but runs
fetchFreshData. -/
theorem c3_counterexample :
    (observableCacheRead ⟨0, true, false, false, false, 0⟩
        (setCachedValue 0 0 emptyCacheState 100 "k" 7 none) 150 "k").1 =
      ReadOutcome.fetchedFresh ∧
    (observableCacheRead ⟨0, true, false, false, false, 0⟩
        (setCachedValue 0 0 emptyCacheState 100 "k" 7 none) 150 "k").1 ≠
      ReadOutcome.servedFromCache (some 7) := by
  decide

/-- C3 amended: storing a value with ttl = 0 creates an entry whose
expiresAt equals its write timestamp, so every read at or after the
write treats it as already expired; there is no never-expires marker,
and with staleWhileRevalidate disabled such a read performs a fresh
computation instead of answering from the cache. -/
theorem c3_ttl_zero_already_expired (s : CacheState) (t now : Nat)
    (key : String) (v : Nat) (hle : t ≤ now) :
    mapGet (setCachedValue 0 0 s t key v none).memoryCache key =
      some ⟨some v, t, none, t, false⟩ ∧
    (observableCacheRead ⟨0, true, false, false, false, 0⟩
        (setCachedValue 0 0 s t key v none) now key).1 =
      ReadOutcome.fetchedFresh := by
  have hset : (setCachedValue 0 0 s t key v none).memoryCache =
      mapSet s.memoryCache key ⟨some v, t, none, t, false⟩ := by
    simp [setCachedValue, evictionVictim]
  have hget : mapGet (setCachedValue 0 0 s t key v none).memoryCache key =
      some ⟨some v, t, none, t, false⟩ := by
    rw [hset]; exact mapGet_set_self _ _ _
  refine ⟨hget, ?_⟩
  have hnot : ¬ now < t := by omega
  simp [observableCacheRead, getCachedValue, hget, hnot]

/-- Witness for C3 amended at a concrete input. -/
theorem c3_ttl_zero_already_expired_witness :
    mapGet (setCachedValue 0 0 emptyCacheState 100 "k" 7 none).memoryCache "k" =
      some ⟨some 7, 100, none, 100, false⟩ ∧
    (observableCacheRead ⟨0, true, false, false, false, 0⟩
        (setCachedValue 0 0 emptyCacheState 100 "k" 7 none) 150 "k").1 =
      ReadOutcome.fetchedFresh :=
  c3_ttl_zero_already_expired emptyCacheState 100 150 "k" 7 (by decide)

/-- C4 counterexample: the claim says every read at or after expiry
(now ≥ expiresAt) returns absent and the expired entry is not served.
Under the decorator defaults (staleWhileRevalidate = true) a read at
expiry serves the expired value. -/
theorem c4_counterexample :
    (observableCacheRead ⟨10, true, false, false, true, 0⟩
        (setCachedValue 0 10 emptyCacheState 0 "k" 5 none) 10 "k").1 =
      ReadOutcome.servedStale (some 5) ∧
    (observableCacheRead ⟨10, true, false, false, true, 0⟩
        (setCachedValue 0 10 emptyCacheState 0 "k" 5 none) 10 "k").1 ≠
      ReadOutcome.fetchedFresh := by
  decide

/-- C4 amended: after set(k, v, ttl) at time t, a read strictly before
expiry (now < t + ttl) returns v from the cache; at or after expiry
(now ≥ t + ttl) the entry is no longer served as valid and, when
staleWhileRevalidate is disabled, the read bypasses it and performs a
fresh computation — but under the default staleWhileRevalidate = true
the expired value is still served (with a revalidating fetch
triggered). -/
theorem c4_cache_expiry (s : CacheState) (t now ttl : Nat) (key : String)
    (v : Nat) (sh sl swr : Bool) :
    (now < t + ttl →
      (observableCacheRead ⟨ttl, sh, sl, false, swr, 0⟩
          (setCachedValue 0 ttl s t key v none) now key).1 =
        ReadOutcome.servedFromCache (some v)) ∧
    (t + ttl ≤ now →
      (observableCacheRead ⟨ttl, sh, sl, false, false, 0⟩
          (setCachedValue 0 ttl s t key v none) now key).1 =
        ReadOutcome.fetchedFresh) ∧
    (t + ttl ≤ now →
      (observableCacheRead ⟨ttl, sh, sl, false, true, 0⟩
          (setCachedValue 0 ttl s t key v none) now key).1 =
        ReadOutcome.servedStale (some v)) := by
  have hset : (setCachedValue 0 ttl s t key v none).memoryCache =
      mapSet s.memoryCache key ⟨some v, t, none, t + ttl, false⟩ := by
    simp [setCachedValue, evictionVictim]
  have hget : mapGet (setCachedValue 0 ttl s t key v none).memoryCache key =
      some ⟨some v, t, none, t + ttl, false⟩ := by
    rw [hset]; exact mapGet_set_self _ _ _
  refine ⟨?_, ?_, ?_⟩
  · intro hlt
    simp [observableCacheRead, getCachedValue, hget, hlt]
  · intro hge
    have hnot : ¬ now < t + ttl := by omega
    simp [observableCacheRead, getCachedValue, hget, hnot]
  · intro hge
    have hnot : ¬ now < t + ttl := by omega
    simp [observableCacheRead, getCachedValue, hget, hnot]

/-- Witness for C4 amended at concrete inputs: a read at time 9 (before
expiry at 10) serves 5 from the cache; a read at time 10 with
staleWhileRevalidate off fetches fresh data; the same read with the
default staleWhileRevalidate on serves the stale 5. -/
theorem c4_cache_expiry_witness :
    (observableCacheRead ⟨10, true, false, false, false, 0⟩
        (setCachedValue 0 10 emptyCacheState 0 "k" 5 none) 9 "k").1 =
      ReadOutcome.servedFromCache (some 5) ∧
    (observableCacheRead ⟨10, true, false, false, false, 0⟩
        (setCachedValue 0 10 emptyCacheState 0 "k" 5 none) 10 "k").1 =
      ReadOutcome.fetchedFresh ∧
    (observableCacheRead ⟨10, true, false, false, true, 0⟩
        (setCachedValue 0 10 emptyCacheState 0 "k" 5 none) 10 "k").1 =
      ReadOutcome.servedStale (some 5) :=
  ⟨(c4_cache_expiry emptyCacheState 0 9 10 "k" 5 true false false).1 (by decide),
   (c4_cache_expiry emptyCacheState 0 10 10 "k" 5 true false false).2.1 (by decide),
   (c4_cache_expiry emptyCacheState 0 10 10 "k" 5 true false true).2.2 (by decide)⟩

/-- The eviction scan either keeps its accumulator (no strictly smaller
time exists) or returns the first list entry attaining the minimum:
entries before it have strictly larger times, entries after it no
smaller ones. -/
theorem foldOldest_spec (l : List (String × Nat)) (acc : String × Nat) :
    (l.foldl findOldestStep acc = acc ∧ ∀ p ∈ l, acc.2 ≤ p.2) ∨
    (∃ l1 l2, l = l1 ++ (l.foldl findOldestStep acc) :: l2 ∧
      (l.foldl findOldestStep acc).2 < acc.2 ∧
      (∀ p ∈ l1, (l.foldl findOldestStep acc).2 < p.2) ∧
      (∀ p ∈ l2, (l.foldl findOldestStep acc).2 ≤ p.2)) := by
  induction l generalizing acc with
  | nil => exact Or.inl ⟨rfl, by simp⟩
  | cons p l ih =>
    have hstep : (p :: l).foldl findOldestStep acc =
        l.foldl findOldestStep (findOldestStep acc p) := rfl
    by_cases hp : p.2 < acc.2
    · have hs : findOldestStep acc p = p := by simp [findOldestStep, hp]
      rw [hstep, hs]
      rcases ih p with ⟨heq, hall⟩ | ⟨l1, l2, heq, hlt, h1, h2⟩
      · refine Or.inr ⟨[], l, ?_, ?_, ?_, ?_⟩
        · rw [heq]; rfl
        · rw [heq]; exact hp
        · simp
        · intro q hq; rw [heq]; exact hall q hq
      · refine Or.inr ⟨p :: l1, l2, ?_, ?_, ?_, h2⟩
        · rw [List.cons_append]; exact congrArg (List.cons p) heq
        · exact lt_trans hlt hp
        · intro q hq
          rcases List.mem_cons.mp hq with rfl | hq
          · exact hlt
          · exact h1 q hq
    · have hs : findOldestStep acc p = acc := by simp [findOldestStep, hp]
      rw [hstep, hs]
      rcases ih acc with ⟨heq, hall⟩ | ⟨l1, l2, heq, hlt, h1, h2⟩
      · refine Or.inl ⟨heq, ?_⟩
        intro q hq
        rcases List.mem_cons.mp hq with rfl | hq
        · omega
        · exact hall q hq
      · refine Or.inr ⟨p :: l1, l2, ?_, hlt, ?_, h2⟩
        · rw [List.cons_append]; exact congrArg (List.cons p) heq
        · intro q hq
          rcases List.mem_cons.mp hq with rfl | hq
          · omega
          · exact h1 q hq

/-- C8: whenever setCachedValue evicts under the size bound, the victim
is the least-recently-touched key — the first entry of lruKeys whose
touch time attains the minimum, so ties are broken by insertion order
(JS Map.set keeps an existing key's position, so lruKeys order is
insertion order); reads count as touches because a memoryCache hit in
getCachedValue re-stamps the key's touch time; and a store at
maxSize = 2 holding x then y, with x touched before y, evicts exactly
x when z is inserted. -/
theorem c8_lru_eviction :
    (∀ (s : CacheState) (now m : Nat) (k : String),
      evictionVictim m s now = some k →
      ∃ t l1 l2, s.lruKeys = l1 ++ (k, t) :: l2 ∧ t < now ∧
        (∀ p ∈ l1, t < p.2) ∧ (∀ p ∈ l2, t ≤ p.2)) ∧
    (∀ (s : CacheState) (now : Nat) (key : String) (item : CacheItem),
      mapGet s.memoryCache key = some item →
      (getCachedValue s now key).2.lruKeys = mapSet s.lruKeys key now) ∧
    (mapGet (setCachedValue 2 10
        ⟨[("x", ⟨some 1, 1, none, 11, false⟩), ("y", ⟨some 2, 2, none, 12, false⟩)],
         [], [("x", 1), ("y", 2)]⟩ 3 "z" 7 none).memoryCache "x" = none ∧
      mapHas (setCachedValue 2 10
        ⟨[("x", ⟨some 1, 1, none, 11, false⟩), ("y", ⟨some 2, 2, none, 12, false⟩)],
         [], [("x", 1), ("y", 2)]⟩ 3 "z" 7 none).memoryCache "y" = true ∧
      mapHas (setCachedValue 2 10
        ⟨[("x", ⟨some 1, 1, none, 11, false⟩), ("y", ⟨some 2, 2, none, 12, false⟩)],
         [], [("x", 1), ("y", 2)]⟩ 3 "z" 7 none).memoryCache "z" = true) := by
  refine ⟨?_, ?_, by decide⟩
  · intro s now m k hvic
    simp only [evictionVictim] at hvic
    by_cases hguard : m ≠ 0 ∧ m ≤ s.memoryCache.length
    · rw [if_pos hguard] at hvic
      by_cases hk : findOldestKey s.lruKeys now = ""
      · rw [if_pos hk] at hvic; exact absurd hvic (by simp)
      · rw [if_neg hk] at hvic
        have hkk : k = findOldestKey s.lruKeys now := by
          simpa using hvic.symm
        subst hkk
        rcases foldOldest_spec s.lruKeys ("", now) with ⟨heq, _⟩ | h
        · exact absurd (congrArg Prod.fst heq) hk
        · obtain ⟨l1, l2, heq, hlt, h1, h2⟩ := h
          refine ⟨(s.lruKeys.foldl findOldestStep ("", now)).2, l1, l2, ?_, hlt, h1, h2⟩
          simpa [findOldestKey] using heq
    · rw [if_neg hguard] at hvic
      exact absurd hvic (by simp)
  · intro s now key item hget
    simp [getCachedValue, hget]

/-- Witness for C8: applying the general eviction characterisation at a
concrete state whose lruKeys are [(a, 5), (b, 3), (c, 3)] — the victim
is b, the first key attaining the minimal touch time 3. -/
theorem c8_lru_eviction_witness :
    evictionVictim 3
      (⟨[("a", ⟨some 1, 5, none, 15, false⟩), ("b", ⟨some 2, 3, none, 13, false⟩),
         ("c", ⟨some 3, 3, none, 13, false⟩)], [],
        [("a", 5), ("b", 3), ("c", 3)]⟩ : CacheState) 9 = some "b" ∧
    (∃ t l1 l2,
      ([("a", 5), ("b", 3), ("c", 3)] : List (String × Nat)) =
        l1 ++ ("b", t) :: l2 ∧ t < 9 ∧
      (∀ p ∈ l1, t < p.2) ∧ (∀ p ∈ l2, t ≤ p.2)) :=
  ⟨by decide,
   c8_lru_eviction.1
     ⟨[("a", ⟨some 1, 5, none, 15, false⟩), ("b", ⟨some 2, 3, none, 13, false⟩),
       ("c", ⟨some 3, 3, none, 13, false⟩)], [],
      [("a", 5), ("b", 3), ("c", 3)]⟩ 9 3 "b" (by decide)⟩

theorem mem_setAdd_self (ks : List String) (k : String) : k ∈ setAdd ks k := by
  by_cases h : k ∈ ks
  · simp [setAdd, h]
  · simp [setAdd, h]

/-- C9 counterexample: storing key k under group g1 and then re-storing
the same key under group g2 leaves k in both groups' key sets —
setCachedValue adds the key to the new group without removing it from
the old one, so a key is not a member of at most one group. -/
theorem c9_counterexample :
    ("k" ∈ (mapGet (setCachedValue 0 10
        (setCachedValue 0 10 emptyCacheState 0 "k" 1 (some "g1"))
        1 "k" 2 (some "g2")).cacheGroups "g1").getD []) ∧
    ("k" ∈ (mapGet (setCachedValue 0 10
        (setCachedValue 0 10 emptyCacheState 0 "k" 1 (some "g1"))
        1 "k" 2 (some "g2")).cacheGroups "g2").getD []) ∧
    ("g1" : String) ≠ "g2" := by
  decide

/-- C9 amended: a cache key can belong to several groups at once —
re-setting an existing key under a different group adds it to the new
group's key set while leaving the old group's key set unchanged (only
LRU eviction removes a key from a group, and then only from the first
group containing it). -/
theorem c9_key_in_multiple_groups (s : CacheState) (key : String)
    (g g' : String) (ks : List String) (v ttl now : Nat)
    (hg : mapGet s.cacheGroups g = some ks) (hmem : key ∈ ks)
    (hne : g' ≠ g) :
    mapGet (setCachedValue 0 ttl s now key v (some g')).cacheGroups g =
      some ks ∧
    key ∈ (mapGet (setCachedValue 0 ttl s now key v (some g')).cacheGroups
        g').getD [] ∧
    key ∈ ks := by
  have hgroups : (setCachedValue 0 ttl s now key v (some g')).cacheGroups =
      mapSet s.cacheGroups g' (setAdd ((mapGet s.cacheGroups g').getD []) key) := by
    simp [setCachedValue, evictionVictim]
  refine ⟨?_, ?_, hmem⟩
  · rw [hgroups, mapGet_set_ne _ _ _ _ hne, hg]
  · rw [hgroups, mapGet_set_self]
    exact mem_setAdd_self _ _

/-- Witness for C9 amended at a concrete input: with key k already in
group g1, re-setting it under g2 keeps it in g1 and adds it to g2. -/
theorem c9_key_in_multiple_groups_witness :
    mapGet (setCachedValue 0 10
        (⟨[("k", ⟨some 1, 0, some "g1", 10, false⟩)], [("g1", ["k"])],
          [("k", 0)]⟩ : CacheState) 1 "k" 2 (some "g2")).cacheGroups "g1" =
      some ["k"] ∧
    "k" ∈ (mapGet (setCachedValue 0 10
        (⟨[("k", ⟨some 1, 0, some "g1", 10, false⟩)], [("g1", ["k"])],
          [("k", 0)]⟩ : CacheState) 1 "k" 2 (some "g2")).cacheGroups
        "g2").getD [] ∧
    "k" ∈ ["k"] :=
  c9_key_in_multiple_groups
    ⟨[("k", ⟨some 1, 0, some "g1", 10, false⟩)], [("g1", ["k"])], [("k", 0)]⟩
    "k" "g1" "g2" ["k"] 2 10 1 (by decide) (by decide) (by decide)

/-! ### C2: `ObservableQueue` (`src/unnamed/part_023`)

One worker per queue id: `queue.pipe(concatMap(item => ...)).subscribe()`.
concatMap runs each item's inner observable to settlement before
subscribing the next one, in arrival order.  A synchronous throw of the
original method is caught (`catch` returns `of(null)`), so the worker
survives it; but an error notification of the inner observable passes
through `tap` and `concatMap` to the outer subscriber (which has no
error handler), terminating the worker subscription — items behind it,
and all items enqueued on that queue id afterwards, never start. -/

/-- Behaviour of one enqueued item: its inner observable completes or
errors after the given duration, or the method call itself throws or
returns a plain synchronous value. -/
inductive QItem
  | obsOk (dur : Nat)
  | obsErr (dur : Nat)
  | syncThrow
  | syncValue
deriving Repr, DecidableEq

def qDur : QItem → Nat
  | .obsOk d => d
  | .obsErr d => d
  | .syncThrow => 0
  | .syncValue => 0

/-- Does processing this item terminate the worker subscription? -/
def qKillsWorker : QItem → Bool
  | .obsErr _ => true
  | _ => false

/-- The worker's execution log: (item index, start time) of every item
that begins execution, in order.  Each item runs to settlement before
the next starts; an inner-observable error ends the log. -/
def runQueue : List QItem → Nat → Nat → List (Nat × Nat)
  | [], _, _ => []
  | it :: rest, idx, t =>
    (idx, t) ::
      (if qKillsWorker it then [] else runQueue rest (idx + 1) (t + qDur it))

/-- Indices of the items that start executing, in start order. -/
def queueStarts (items : List QItem) : List Nat :=
  (runQueue items 0 0).map Prod.fst

theorem runQueue_no_error (items : List QItem) (idx t : Nat)
    (h : ∀ it ∈ items, qKillsWorker it = false) :
    (runQueue items idx t).map Prod.fst =
      (List.range items.length).map (· + idx) := by
  induction items generalizing idx t with
  | nil => simp [runQueue]
  | cons it rest ih =>
    have hit : qKillsWorker it = false := h it (List.mem_cons_self it rest)
    have hrest : ∀ x ∈ rest, qKillsWorker x = false :=
      fun x hx => h x (List.mem_cons_of_mem it hx)
    have hstep : runQueue (it :: rest) idx t =
        (idx, t) :: runQueue rest (idx + 1) (t + qDur it) := by
      simp [runQueue, hit]
    rw [hstep, List.map_cons, ih (idx + 1) (t + qDur it) hrest]
    simp only [List.length_cons]
    rw [List.range_succ_eq_map, List.map_cons, List.map_map]
    simp only [Nat.zero_add]
    congr 1
    apply List.map_congr_left
    intro x hx
    simp only [Function.comp_apply]
    omega

/-- In the error-free case the queue is strict FIFO: items start in
exactly arrival order, regardless of their durations. -/
theorem queueStarts_fifo (items : List QItem)
    (h : ∀ it ∈ items, qKillsWorker it = false) :
    queueStarts items = List.range items.length := by
  unfold queueStarts
  rw [runQueue_no_error items 0 0 h]
  simp

/-- C2 (evaluated at the failing input): enqueueing [a, b] where a's
observable errors after 1ms and b's completes after 1ms, only a ever
starts executing — the error terminates the worker, so the start order
is [0], not the arrival order [0, 1] the claim requires. -/
theorem c2_queue_error_kills_worker :
    queueStarts [.obsErr 1, .obsOk 1] = [0] ∧
    queueStarts [.obsErr 1, .obsOk 1] ≠ List.range 2 ∧
    queueStarts [.syncThrow, .obsOk 1] = [0, 1] := by
  decide

/-! ### C6: `PollingObservable`
(`src/app/shared/decorators/polling-observable-decorator.ts`)

The pipeline is `timer(0, interval) |> takeUntil(stop$) |> takeWhile
(maxAttempts) |> switchMap(run attempt) |> tap(...) |> catchError(...)
|> finalize(...)`.  A synchronous throw of the original method is
caught inside switchMap and replaced by `of(null)` when
continueOnError, so the timer keeps ticking; but an error emitted by
the returned observable propagates out of switchMap — `tap`'s error
callback fires `onComplete(lastValue, 'error')` unconditionally, and
`catchError` then replaces the whole (already terminated) stream with
`of(null)`, which emits null and completes: polling ends either way. -/

/-- Outcome of one polling attempt. -/
inductive Attempt
  | ok (v : Nat)
  | syncThrow
  | obsErr
deriving Repr, DecidableEq

inductive PollReason
  | predicate
  | maxAttempts
  | maxDuration
  | error
  | cancelled
deriving Repr, DecidableEq

/-- Observable trace of one polling run: number of attempts actually
executed, values emitted to the subscriber, onComplete invocations, and
whether the stream terminated with an error notification. -/
structure PollTrace where
  attempts : Nat
  emissions : List (Option Nat)
  completions : List (Option Nat × PollReason)
  errored : Bool
deriving Repr, DecidableEq

/-- Runs the polling pipeline over the outcomes the successive timer
ticks would produce (maxAttempts = 0 models the unset option, matching
the JS truthiness guard; the stop predicate models
`value && stopPredicate(value)`, so 0 — falsy in JS — never stops). -/
def pollRun (continueOnError : Bool) (maxAtt : Nat) (stopPred : Nat → Bool) :
    List Attempt → Nat → Option Nat → PollTrace
  | [], count, _ => ⟨count, [], [], false⟩
  | o :: rest, count, lastValue =>
    if maxAtt ≠ 0 ∧ maxAtt ≤ count then
      ⟨count, [], [(lastValue, .maxAttempts)], false⟩
    else
      match o with
      | .ok v =>
        if v ≠ 0 ∧ stopPred v then
          ⟨count + 1, [some v], [(some v, .predicate)], false⟩
        else
          let r := pollRun continueOnError maxAtt stopPred rest (count + 1) (some v)
          ⟨r.attempts, some v :: r.emissions, r.completions, r.errored⟩
      | .syncThrow =>
        if continueOnError then
          let r := pollRun continueOnError maxAtt stopPred rest (count + 1) none
          ⟨r.attempts, none :: r.emissions, r.completions, r.errored⟩
        else
          ⟨count + 1, [], [(lastValue, .error)], true⟩
      | .obsErr =>
        if continueOnError then
          ⟨count + 1, [none], [(lastValue, .error)], false⟩
        else
          ⟨count + 1, [], [(lastValue, .error)], true⟩

/-- C6 (evaluated at the failing input): with continueOnError = true
(the default) a first attempt whose observable errors is NOT swallowed:
onComplete fires with reason error and polling stops after one attempt
(the pending second attempt never runs; the subscriber receives a null
emission and completion).  Only a synchronous throw is swallowed: there
polling does continue to the second attempt with no error completion. -/
theorem c6_continue_on_error_bug :
    pollRun true 0 (fun _ => false) [.obsErr, .ok 1] 0 none =
      ⟨1, [none], [(none, .error)], false⟩ ∧
    pollRun true 0 (fun _ => false) [.syncThrow, .ok 1] 0 none =
      ⟨2, [none, some 1], [], false⟩ ∧
    pollRun false 0 (fun _ => false) [.obsErr, .ok 1] 0 none =
      ⟨1, [], [(none, .error)], true⟩ := by
  decide

/-! ### C5: `BulkOperator`
(`src/app/shared/decorators/bulk-operator-decorator.ts`)

The decorated method splits `items` into consecutive slices of
`batchSize`, drives the batches strictly one after the other
(`mergeMap(processBatch, 1)`), and inside one batch runs the per-item
operations through `mergeMap(op, maxConcurrent) |> toArray()`.
`mergeMap` emits inner results in completion order, so `toArray`
collects a batch's results in completion order, not input order. -/

/-- Pairs every duration with its index, starting at k. -/
def enumFromIdx (k : Nat) : List Nat → List (Nat × Nat)
  | [] => []
  | d :: ds => (k, d) :: enumFromIdx (k + 1) ds

/-- Splits off the first entry with minimal second component (the next
inner observable to complete; ties go to the earlier subscription),
keeping the order of the rest. -/
def splitFirstMin : List (Nat × Nat) → Option ((Nat × Nat) × List (Nat × Nat))
  | [] => none
  | p :: rest =>
    if rest.all (fun q => p.2 ≤ q.2) then some (p, rest)
    else
      match splitFirstMin rest with
      | none => some (p, rest)
      | some (q, rest2) => some (q, p :: rest2)

/-- Simulates `mergeMap(op, concurrent) |> toArray()` on operations
with known durations: `active` holds (index, finish time) of the
subscribed operations, `pending` holds (index, duration) of the queued
ones.  Whenever the active operation with the least finish time
settles, its index is emitted and the next pending operation starts at
that moment.  The fuel is the number of emissions still possible. -/
def mergeMapLoop : Nat → List (Nat × Nat) → List (Nat × Nat) → List Nat
  | 0, _, _ => []
  | fuel + 1, active, pending =>
    match splitFirstMin active with
    | none => []
    | some ((i, f), rest) =>
      match pending with
      | [] => i :: mergeMapLoop fuel rest []
      | (j, d) :: ps => i :: mergeMapLoop fuel (rest ++ [(j, f + d)]) ps

/-- Emission order (indices) of `mergeMap` with the given concurrency
over operations with the given durations, all subscribed from a cold
list: the first `c` start at time 0, the rest are queued. -/
def mergeMapOrder (c : Nat) (durs : List Nat) : List Nat :=
  mergeMapLoop durs.length ((enumFromIdx 0 durs).take c) ((enumFromIdx 0 durs).drop c)

/-- The batch-splitting loop `for (i = 0; i < length; i += batchSize)`.
The fuel bounds the number of slices (with batchSize ≥ 1 the fuel
items.length is never exhausted; batchSize = 0 loops forever in JS). -/
def chunkListAux : Nat → List Nat → Nat → List (List Nat)
  | 0, _, _ => []
  | fuel + 1, l, b =>
    match l with
    | [] => []
    | _ :: _ => l.take b :: chunkListAux fuel (l.drop b) b

def chunkList (l : List Nat) (b : Nat) : List (List Nat) :=
  chunkListAux l.length l b

/-- Translation of the decorated method: per-item results (f applied to
the item) are produced batch by batch in batch order, and inside a
batch in mergeMap completion order, where durOf gives each item's
operation duration. -/
def bulkProcess (f durOf : Nat → Nat) (items : List Nat)
    (batchSize c : Nat) : List Nat :=
  ((chunkList items batchSize).map (fun chunk =>
    (mergeMapOrder c (chunk.map durOf)).map (fun i => f (chunk.getD i 0)))).flatten

/-- C5 counterexample: process([1,2,3,4,5], batchSize = 2,
concurrency = 2) where item 1 takes 5ms and every other item 1ms: the
first batch's results arrive as [r2, r1], so the output is
[r2, r1, r3, r4, r5], not the claimed input order. -/
theorem c5_counterexample :
    bulkProcess (fun v => v) (fun v => if v = 1 then 5 else 1)
      [1, 2, 3, 4, 5] 2 2 = [2, 1, 3, 4, 5] ∧
    bulkProcess (fun v => v) (fun v => if v = 1 then 5 else 1)
      [1, 2, 3, 4, 5] 2 2 ≠
      List.map (fun v => v) [1, 2, 3, 4, 5] := by
  decide

theorem enumFromIdx_map_fst (l : List Nat) (k : Nat) :
    (enumFromIdx k l).map Prod.fst = (List.range l.length).map (· + k) := by
  induction l generalizing k with
  | nil => simp [enumFromIdx]
  | cons d ds ih =>
    simp only [enumFromIdx, List.map_cons, ih (k + 1), List.length_cons]
    rw [List.range_succ_eq_map, List.map_cons, List.map_map]
    simp only [Nat.zero_add]
    congr 1
    apply List.map_congr_left
    intro x hx
    simp only [Function.comp_apply]
    omega

theorem mergeMapLoop_empty (fuel : Nat) : mergeMapLoop fuel [] [] = [] := by
  cases fuel <;> simp [mergeMapLoop, splitFirstMin]

theorem mergeMapLoop_single (pending : List (Nat × Nat)) (fuel i f : Nat)
    (hfuel : pending.length < fuel) :
    mergeMapLoop fuel [(i, f)] pending = i :: pending.map Prod.fst := by
  induction pending generalizing fuel i f with
  | nil =>
    obtain ⟨m, rfl⟩ : ∃ m, fuel = m + 1 := ⟨fuel - 1, by omega⟩
    simp [mergeMapLoop, splitFirstMin, mergeMapLoop_empty]
  | cons p ps ih =>
    obtain ⟨m, rfl⟩ : ∃ m, fuel = m + 1 := ⟨fuel - 1, by omega⟩
    obtain ⟨j, d⟩ := p
    have hm : ps.length < m := by
      simp only [List.length_cons] at hfuel
      omega
    simp [mergeMapLoop, splitFirstMin, ih m (j) (f + d) hm]

/-- With concurrency 1 mergeMap degenerates to concatMap: emission
order is subscription order. -/
theorem mergeMapOrder_serial (durs : List Nat) :
    mergeMapOrder 1 durs = List.range durs.length := by
  match durs with
  | [] => simp [mergeMapOrder, enumFromIdx, mergeMapLoop]
  | d :: ds =>
    have hlen : ∀ (k : Nat) (l : List Nat), (enumFromIdx k l).length = l.length := by
      intro k l
      induction l generalizing k with
      | nil => rfl
      | cons x xs ih => simp [enumFromIdx, ih]
    simp only [mergeMapOrder, enumFromIdx, List.length_cons,
      List.take_succ_cons, List.take_zero, List.drop_succ_cons,
      List.drop_zero, Nat.zero_add]
    rw [mergeMapLoop_single (enumFromIdx 1 ds) (ds.length + 1) 0 d
      (by rw [hlen]; omega)]
    rw [enumFromIdx_map_fst, List.range_succ_eq_map]

theorem map_range_getD (f : Nat → Nat) (l : List Nat) :
    (List.range l.length).map (fun i => f (l.getD i 0)) = l.map f := by
  induction l with
  | nil => simp
  | cons x xs ih =>
    simp only [List.length_cons]
    rw [List.range_succ_eq_map, List.map_cons, List.map_map]
    simp only [List.getD_cons_zero, List.map_cons]
    congr 1

theorem chunkListAux_flatten (b : Nat) (hb : 1 ≤ b) (fuel : Nat) :
    ∀ l : List Nat, l.length ≤ fuel → (chunkListAux fuel l b).flatten = l := by
  induction fuel with
  | zero =>
    intro l hl
    have : l = [] := List.eq_nil_of_length_eq_zero (by omega)
    subst this
    rfl
  | succ fuel ih =>
    intro l hl
    match l with
    | [] => rfl
    | x :: xs =>
      simp only [List.length_cons] at hl
      have hdrop : ((x :: xs).drop b).length ≤ fuel := by
        simp only [List.length_drop, List.length_cons]
        omega
      simp only [chunkListAux, List.flatten_cons]
      rw [ih _ hdrop, List.take_append_drop]

/-- C5 amended: batch-level ordering is preserved (batches run strictly
one after the other and their result groups are appended in batch
order), but inside a batch results arrive in completion order; input
order within a batch is only guaranteed when execution is serial.
With concurrency 1 the output is the per-item results in input order,
for every item list, batch size ≥ 1 and any durations. -/
theorem c5_batch_order_serial (f durOf : Nat → Nat) (items : List Nat)
    (b : Nat) (hb : 1 ≤ b) :
    bulkProcess f durOf items b 1 = items.map f := by
  unfold bulkProcess
  have hchunk : ∀ chunk : List Nat,
      (mergeMapOrder 1 (chunk.map durOf)).map (fun i => f (chunk.getD i 0)) =
        chunk.map f := by
    intro chunk
    rw [mergeMapOrder_serial, List.length_map, map_range_getD]
  have hmap : (chunkList items b).map (fun chunk =>
      (mergeMapOrder 1 (chunk.map durOf)).map (fun i => f (chunk.getD i 0))) =
      (chunkList items b).map (fun chunk => chunk.map f) :=
    List.map_congr_left (fun chunk _ => hchunk chunk)
  rw [hmap, ← List.map_flatten, chunkList,
    chunkListAux_flatten b hb items.length items le_rfl]

/-- Witness for C5 amended at a concrete input: serial processing of
[1, 2, 3] in batches of 2 squares the items in input order. -/
theorem c5_batch_order_serial_witness :
    bulkProcess (fun v => v * v) (fun _ => 3) [1, 2, 3] 2 1 =
      List.map (fun v => v * v) [1, 2, 3] :=
  c5_batch_order_serial (fun v => v * v) (fun _ => 3) [1, 2, 3] 2 (by decide)

/-! ### C10: `ObservableMemoize`
(`src/app/shared/decorators/observable-memoize-decorator.ts`)

Per-method cache of entries { value, timestamp, loading }.  A call
joins a loading entry, serves an unexpired completed entry, and
otherwise (miss or expired) evicts under maxSize, invokes the original
method and stores a loading entry.  `tap` on an emitted value replaces
the entry by a completed one; `finalize` deletes the entry when it is
still marked loading — which is exactly the case where the observable
errored (or completed) without emitting a value. -/

theorem mapGet_delete_of_get_none {α : Type} (m : List (String × α))
    (k k2 : String) (h : mapGet m k = none) :
    mapGet (mapDelete m k2) k = none := by
  induction m with
  | nil => simp [mapDelete, mapGet]
  | cons hd tl ih =>
    obtain ⟨k', v'⟩ := hd
    by_cases hk : k' = k
    · simp [mapGet, hk] at h
    · simp only [mapGet, if_neg hk] at h
      by_cases hk2 : k' = k2
      · simpa [mapDelete, hk2] using h
      · simp only [mapDelete, if_neg hk2, mapGet, if_neg hk]
        exact ih h

theorem mapDelete_set_of_get_none {α : Type} (m : List (String × α))
    (k : String) (v : α) (h : mapGet m k = none) :
    mapDelete (mapSet m k v) k = m := by
  induction m with
  | nil => simp [mapSet, mapDelete]
  | cons hd tl ih =>
    obtain ⟨k', v'⟩ := hd
    by_cases hk : k' = k
    · simp [mapGet, hk] at h
    · simp only [mapGet, if_neg hk] at h
      simp only [mapSet, if_neg hk, mapDelete, if_neg hk]
      rw [ih h]

/-- One memoization-cache entry: a completed value stored as of(v)
(value = some v, loading = false) or the raw in-flight observable
(value = none, loading = true). -/
structure MemoEntry where
  value : Option Nat
  timestamp : Nat
  loading : Bool
deriving Repr, DecidableEq

structure MemoState where
  cache : List (String × MemoEntry)
  invocations : Nat
deriving Repr, DecidableEq

/-- What the decorated method hands back. -/
inductive MemoCallResult
  | joinedInFlight
  | cacheHit (v : Option Nat)
  | invoked
deriving Repr, DecidableEq

/-- The maxSize eviction victim:
Array.from(cache.entries()).sort((a, b) => a.timestamp - b.timestamp)[0][0],
i.e. the first entry (stable sort) attaining the minimal timestamp. -/
def oldestEntryKey : List (String × MemoEntry) → Option String
  | [] => none
  | e :: rest =>
    some ((rest.foldl
      (fun acc x => if x.2.timestamp < acc.2.timestamp then x else acc) e).1)

/-- The cache-miss tail of the decorated method: evict under maxSize
(0 models the unset option), invoke the original method and store a
loading entry. -/
def memoMiss (maxSize : Nat) (s : MemoState) (now : Nat) (key : String)
    (cache : List (String × MemoEntry)) : MemoCallResult × MemoState :=
  let cache1 :=
    if maxSize ≠ 0 ∧ maxSize ≤ cache.length then
      match oldestEntryKey cache with
      | some old => mapDelete cache old
      | none => cache
    else cache
  (.invoked, ⟨mapSet cache1 key ⟨none, now, true⟩, s.invocations + 1⟩)

/-- Translation of descriptor.value: join an in-flight entry, serve an
unexpired completed entry, delete an expired one and fall through to
the miss path (expirationTime = 0 models the unset option, matching the
JS truthiness guard on isExpired). -/
def memoCall (expirationTime maxSize : Nat) (s : MemoState) (now : Nat)
    (key : String) : MemoCallResult × MemoState :=
  match mapGet s.cache key with
  | some entry =>
    if entry.loading then (.joinedInFlight, s)
    else if expirationTime ≠ 0 ∧ expirationTime < now - entry.timestamp then
      memoMiss maxSize s now key (mapDelete s.cache key)
    else (.cacheHit entry.value, s)
  | none => memoMiss maxSize s now key s.cache

/-- The tap callback on an emitted value: store of(value) with
loading = false. -/
def memoEmit (s : MemoState) (key : String) (v now : Nat) : MemoState :=
  ⟨mapSet s.cache key ⟨some v, now, false⟩, s.invocations⟩

/-- The finalize callback: delete the entry iff it is still loading. -/
def memoFinalize (s : MemoState) (key : String) : MemoState :=
  match mapGet s.cache key with
  | some e => if e.loading then ⟨mapDelete s.cache key, s.invocations⟩ else s
  | none => s

theorem memoMiss_spec (maxSize : Nat) (s : MemoState) (now : Nat)
    (key : String) (cache : List (String × MemoEntry))
    (h : mapGet cache key = none) :
    ∃ cache1, mapGet cache1 key = none ∧
      memoMiss maxSize s now key cache =
        (.invoked, ⟨mapSet cache1 key ⟨none, now, true⟩, s.invocations + 1⟩) := by
  unfold memoMiss
  by_cases hg : maxSize ≠ 0 ∧ maxSize ≤ cache.length
  · cases hok : oldestEntryKey cache with
    | none => exact ⟨cache, h, by simp [hg, hok]⟩
    | some old =>
      exact ⟨mapDelete cache old, mapGet_delete_of_get_none cache key old h,
        by simp [hg, hok]⟩
  · exact ⟨cache, h, by simp [hg]⟩

/-- C10: a failed operation is never memoized.  On a cache miss the
method is invoked and a loading entry stored; when the observable
errors without having emitted (finalize with the entry still loading),
the entry is removed, and a subsequent call with the same key misses
again and re-invokes the underlying method — the error is never
replayed from the cache. -/
theorem c10_error_not_memoized (expirationTime maxSize : Nat)
    (s : MemoState) (key : String) (now now2 : Nat)
    (hmiss : mapGet s.cache key = none) :
    (memoCall expirationTime maxSize s now key).1 = .invoked ∧
    (memoCall expirationTime maxSize s now key).2.invocations =
      s.invocations + 1 ∧
    mapGet (memoFinalize (memoCall expirationTime maxSize s now key).2
        key).cache key = none ∧
    (memoCall expirationTime maxSize
        (memoFinalize (memoCall expirationTime maxSize s now key).2 key)
        now2 key).1 = .invoked ∧
    (memoCall expirationTime maxSize
        (memoFinalize (memoCall expirationTime maxSize s now key).2 key)
        now2 key).2.invocations = s.invocations + 2 := by
  obtain ⟨cache1, hc1, hmm⟩ := memoMiss_spec maxSize s now key s.cache hmiss
  have hcall1 : memoCall expirationTime maxSize s now key =
      (.invoked, ⟨mapSet cache1 key ⟨none, now, true⟩, s.invocations + 1⟩) := by
    simp only [memoCall, hmiss]
    exact hmm
  have hget1 : mapGet (mapSet cache1 key (⟨none, now, true⟩ : MemoEntry)) key =
      some ⟨none, now, true⟩ := mapGet_set_self cache1 key _
  have hfin : memoFinalize (memoCall expirationTime maxSize s now key).2 key =
      ⟨cache1, s.invocations + 1⟩ := by
    rw [hcall1]
    simp only [memoFinalize, hget1, if_true]
    simp only [MemoState.mk.injEq, and_true]
    exact mapDelete_set_of_get_none cache1 key _ hc1
  obtain ⟨cache2, hc2, hmm2⟩ :=
    memoMiss_spec maxSize ⟨cache1, s.invocations + 1⟩ now2 key cache1 hc1
  have hcall2 : memoCall expirationTime maxSize ⟨cache1, s.invocations + 1⟩
      now2 key =
      (.invoked, ⟨mapSet cache2 key ⟨none, now2, true⟩, s.invocations + 2⟩) := by
    simp only [memoCall, hc1]
    exact hmm2
  refine ⟨by rw [hcall1], by rw [hcall1], ?_, ?_, ?_⟩
  · rw [hfin]; exact hc1
  · rw [hfin, hcall2]
  · rw [hfin, hcall2]

/-- Witness for C10 at a concrete input: a fresh cache, a call that
invokes, an erroring settlement, and a second call that invokes
again. -/
theorem c10_error_not_memoized_witness :
    (memoCall 0 0 ⟨[], 0⟩ 5 "args").1 = MemoCallResult.invoked ∧
    (memoCall 0 0 ⟨[], 0⟩ 5 "args").2.invocations = 0 + 1 ∧
    mapGet (memoFinalize (memoCall 0 0 ⟨[], 0⟩ 5 "args").2 "args").cache
      "args" = none ∧
    (memoCall 0 0 (memoFinalize (memoCall 0 0 ⟨[], 0⟩ 5 "args").2 "args")
      7 "args").1 = MemoCallResult.invoked ∧
    (memoCall 0 0 (memoFinalize (memoCall 0 0 ⟨[], 0⟩ 5 "args").2 "args")
      7 "args").2.invocations = 0 + 2 :=
  c10_error_not_memoized 0 0 ⟨[], 0⟩ "args" 5 7 rfl

end Spec2Proof
